import Mathlib

/-!
# Verification of `SemanticOcTree.h` (ori-drs/octomap)

Shallow embedding of the node-level fusion and bottom-up aggregation logic of
`src/octomap/include/octomap/SemanticOcTree.h`.  C++ `float` arithmetic is
modelled by exact rationals (`ℚ`); `uint8_t`/`int` channel arithmetic by `Nat`
(all channel values stay in `[0,255]` so C++ integer division coincides with
`Nat` division); `std::vector<float>` by `List ℚ`; the `unordered_map`
label-to-color map by an association list, whose `at` lookup (which throws on a
missing key) is modelled by `Option`.
-/

namespace SemanticOcTree

/-- `SemanticOcTreeNode::Color`: three 8-bit channels.  Default constructor
yields (255,255,255). -/
structure Color where
  r : Nat
  g : Nat
  b : Nat
deriving DecidableEq, Repr

/-- The default-constructed color `Color() : r(255), g(255), b(255)`. -/
def Color.white : Color := ⟨255, 255, 255⟩

/-- `SemanticOcTreeNode::isColorSet`: true iff the color differs from the
white sentinel in some channel. -/
def isColorSet (c : Color) : Bool :=
  c.r ≠ 255 || c.g ≠ 255 || c.b ≠ 255

/-- `SemanticOcTreeNode::Semantics`: a label distribution and an observation
count.  The default constructor gives `label = []`, `count = 0`. -/
structure Semantics where
  label : List ℚ
  count : Nat
deriving DecidableEq, Repr

/-- The default-constructed semantics `Semantics() : label(), count(0)`. -/
def Semantics.unset : Semantics := ⟨[], 0⟩

/-- The constructor `Semantics(std::vector<float> _label) : label(_label),
count(1)`. -/
def Semantics.ofLabel (l : List ℚ) : Semantics := ⟨l, 1⟩

/-- `SemanticOcTreeNode::isSemanticsSet`: the label sequence is non-empty. -/
def isSemanticsSet (s : Semantics) : Bool :=
  decide (s.label ≠ [])

/-- A `SemanticOcTreeNode`'s own data: the occupancy value (kept as its raw
bytes, 4 bytes of the underlying `float`, opaque to this core), the color and
the semantics.  Children are modelled separately (the inherited `children`
pointer array), as `Option (List (Option NodeData))` — `none` for a NULL
children array. -/
structure NodeData where
  value : List Nat
  color : Color
  semantics : Semantics
deriving DecidableEq, Repr

/-- The loop of `SemanticOcTreeNode::getSemanticLabel` (and, with a different
start state, of `std::max_element`): running over the entries with their
indices, replace the current best `(bi, bv)` exactly when the entry is
strictly greater than the best value. -/
def semLabelLoop : List ℚ → Nat → Nat × ℚ → Nat × ℚ
  | [], _, acc => acc
  | x :: xs, i, (bi, bv) => if x > bv then semLabelLoop xs (i + 1) (i, x)
                            else semLabelLoop xs (i + 1) (bi, bv)

/-- `SemanticOcTreeNode::getSemanticLabel`: argmax scan starting from
`label = 0`, `max = 0`, updating only on a strictly greater entry. -/
def getSemanticLabel (l : List ℚ) : Nat :=
  (semLabelLoop l 0 (0, 0)).1

/-- `std::distance(begin, std::max_element(begin, end))` as used in
`getAverageChildColor(label2color)`: on the empty range `max_element` returns
`end`, so the distance is 0; otherwise the scan starts from the first element
and replaces the current best only on a strictly greater element (so ties go
to the lowest index). -/
def maxElementIdx : List ℚ → Nat
  | [] => 0
  | x :: xs => (semLabelLoop xs 1 (0, x)).1

/-- The sum of a label vector as the C++ code accumulates it: a left fold of
`+` starting from 0. -/
def listSum (l : List ℚ) : ℚ := l.foldl (· + ·) 0

/-- `SemanticOcTreeNode::normalizeSemantics`, acting on the label vector:
if the sum of entries is positive divide each entry by it, otherwise set each
entry to `1.0 / size` (on the empty vector the else-loop runs zero times, so
the vector stays empty). -/
def normalizeLabel (l : List ℚ) : List ℚ :=
  let sum := listSum l
  if sum > 0 then l.map (· / sum)
  else l.map (fun _ => 1 / (l.length : ℚ))

/-- `SemanticOcTreeNode::normalizeSemantics` on a whole `Semantics` value:
only the label vector is rewritten, the count is untouched. -/
def normalizeSemantics (s : Semantics) : Semantics :=
  { s with label := normalizeLabel s.label }

/-- `SemanticOcTree::averageNodeColor` on a non-null node: if the node's color
is set, each channel becomes the truncated mean `(prev + observed) / 2`;
otherwise the observed color is adopted verbatim. -/
def averageNodeColor (c : Color) (r g b : Nat) : Color :=
  if isColorSet c then ⟨(c.r + r) / 2, (c.g + g) / 2, (c.b + b) / 2⟩
  else ⟨r, g, b⟩

/-- `SemanticOcTree::averageNodeSemantics` on a non-null node.  If the node's
semantics are set: the previous label vector is grown with zeros to the length
of the observation if shorter, each entry `i < label.size()` becomes
`(prev[i] * count + label[i]) / (count + 1)` (entries beyond the observation's
length stay as they were), the result is normalized, and the count is
incremented.  If unset: the observation is adopted (`setSemantics(label)`
keeps the old count), normalized, and the count reset to 1. -/
def averageNodeSemantics (s : Semantics) (label : List ℚ) : Semantics :=
  if s.label ≠ [] then
    let prev := if s.label.length < label.length then
                  s.label ++ List.replicate (label.length - s.label.length) 0
                else s.label
    let fused := (List.zipWith (fun p l => (p * (s.count : ℚ) + l) / ((s.count : ℚ) + 1)) prev label)
                 ++ prev.drop label.length
    ⟨normalizeLabel fused, s.count + 1⟩
  else
    ⟨normalizeLabel label, 1⟩

/-- One step of the color-accumulation loop of
`SemanticOcTreeNode::getAverageChildColor()` (the no-map variant): children
that are present and have a set color contribute their channels to the sums
`(mr, mg, mb)` and bump the contributing-child count `c`. -/
def colorAccStep (a : Nat × Nat × Nat × Nat) (ch : Option NodeData) :
    Nat × Nat × Nat × Nat :=
  match ch with
  | some child =>
      if isColorSet child.color then
        (a.1 + child.color.r, a.2.1 + child.color.g, a.2.2.1 + child.color.b,
         a.2.2.2 + 1)
      else a
  | none => a

/-- `SemanticOcTreeNode::getAverageChildColor()` (no color map): average the
channels of the children whose color is set, with C++ integer (truncating)
division; with no contributing child, return the white sentinel.  A NULL
children array (`none`) contributes nothing. -/
def getAverageChildColorNoMap (children : Option (List (Option NodeData))) :
    Color :=
  let a := match children with
           | none => ((0 : Nat), (0 : Nat), (0 : Nat), (0 : Nat))
           | some cs => cs.foldl colorAccStep (0, 0, 0, 0)
  if a.2.2.2 > 0 then ⟨a.1 / a.2.2.2, a.2.1 / a.2.2.2, a.2.2.1 / a.2.2.2⟩
  else Color.white

/-- One step of the semantics-accumulation loop of
`SemanticOcTreeNode::getAverageChildSemantics`: a present child with set
semantics first grows the accumulator `mlabel` with zeros to the child's label
length if shorter, then adds the child's entries element-wise, and bumps the
contributing-child count. -/
def semAccStep (a : List ℚ × Nat) (ch : Option NodeData) : List ℚ × Nat :=
  match ch with
  | some child =>
      if child.semantics.label ≠ [] then
        let m := if a.1.length < child.semantics.label.length then
                   a.1 ++ List.replicate (child.semantics.label.length - a.1.length) 0
                 else a.1
        (List.zipWith (· + ·) m child.semantics.label
           ++ m.drop child.semantics.label.length,
         a.2 + 1)
      else a
  | none => a

/-- The accumulation phase of `getAverageChildSemantics`: element-wise sums of
the set children's label vectors (zero-padded to the maximum length seen) and
the count of contributing children. -/
def semAccumulate (children : Option (List (Option NodeData))) : List ℚ × Nat :=
  match children with
  | none => ([], 0)
  | some cs => cs.foldl semAccStep ([], 0)

/-- `SemanticOcTreeNode::getAverageChildSemantics`: if some child contributed,
divide the accumulator entry-wise by the contributing-child count `c`, then
divide each entry by the running total `sums` of the divided entries — note:
with NO guard against `sums` being zero — and wrap the result with the
`Semantics(std::vector<float>)` constructor (count 1).  Otherwise return the
default-constructed semantics (empty label, count 0). -/
def getAverageChildSemantics (children : Option (List (Option NodeData))) :
    Semantics :=
  let a := semAccumulate children
  if a.2 > 0 then
    let divided := a.1.map (· / (a.2 : ℚ))
    let sums := listSum divided
    Semantics.ofLabel (divided.map (· / sums))
  else
    Semantics.unset

/-- `SemanticOcTreeNode::updateSemanticsChildren`: the node's semantics —
whatever they were — are replaced by `getAverageChildSemantics()`. -/
def updateSemanticsChildren (_prior : Semantics)
    (children : Option (List (Option NodeData))) : Semantics :=
  getAverageChildSemantics children

/-- `SemanticOcTreeNode::getAverageChildColor(label2color)`: with an empty map,
fall back to the child-averaging variant; with a non-empty map, ignore the
children and look at the node's own label distribution: empty distribution
gives the white sentinel, otherwise `label2color.at(max_prob_class)` — `at`
throws on a missing key, modelled by the `Option` of the association-list
lookup. -/
def getAverageChildColorMap (children : Option (List (Option NodeData)))
    (semLabel : List ℚ) (label2color : List (Nat × Color)) : Option Color :=
  if label2color.isEmpty then
    some (getAverageChildColorNoMap children)
  else
    if semLabel.isEmpty then some Color.white
    else label2color.lookup (maxElementIdx semLabel)

/-- The leaf branch of `SemanticOcTree::updateInnerOccupancyRecurs`: a node
without children runs `updateColorChildren(label2color)`, i.e. its color is
overwritten with `getAverageChildColor(label2color)` evaluated with a NULL
children array; `none` models the exception thrown by a missing map key. -/
def leafAggregateColor (node : NodeData) (label2color : List (Nat × Color)) :
    Option Color :=
  getAverageChildColorMap none node.semantics.label label2color

/-- The inner-node branch of `SemanticOcTree::updateInnerOccupancyRecurs`
restricted to the color/semantics it recomputes (the occupancy update is
delegated to the external `updateOccupancyChildren` and out of scope): first
`updateSemanticsChildren` overwrites the semantics, then the color is
recomputed — from the freshly written semantics when the map is non-empty,
from the children's colors when it is empty.  The node's prior color and
semantics are not read at all. -/
def innerAggregateStep (children : List (Option NodeData))
    (label2color : List (Nat × Color)) : Option (Color × Semantics) :=
  let sem := getAverageChildSemantics (some children)
  (getAverageChildColorMap (some children) sem.label label2color).map
    (fun c => (c, sem))

/-- `SemanticOcTreeNode::writeData`: append to the stream the occupancy
value's raw bytes (`sizeof(float)` = 4 bytes) followed by the three raw color
channel bytes, in that order; the semantics are not written (the corresponding
source lines are commented out). -/
def writeData (n : NodeData) (s : List Nat) : List Nat :=
  s ++ n.value ++ [n.color.r, n.color.g, n.color.b]

/-- `SemanticOcTreeNode::readData`: consume 4 raw bytes into the occupancy
value and 3 raw bytes into the color, leaving the semantics as they were;
`none` models a stream with too few bytes (stream failure). -/
def readData (n : NodeData) (s : List Nat) : Option (NodeData × List Nat) :=
  match s with
  | v0 :: v1 :: v2 :: v3 :: r :: g :: b :: rest =>
      some ({ n with value := [v0, v1, v2, v3], color := ⟨r, g, b⟩ }, rest)
  | _ => none

/-- A present child whose semantics are set, as the aggregation loop tests it. -/
def childSemSet (ch : Option NodeData) : Bool :=
  match ch with
  | some n => decide (n.semantics.label ≠ [])
  | none => false

/-- A present child whose color is set, as the aggregation loop tests it. -/
def childColorSet (ch : Option NodeData) : Bool :=
  match ch with
  | some n => isColorSet n.color
  | none => false

/-! ### Helper lemmas about list sums -/

lemma foldl_add_shift (l : List ℚ) (a : ℚ) :
    l.foldl (· + ·) a = a + l.foldl (· + ·) 0 := by
  induction l generalizing a with
  | nil => simp
  | cons x xs ih =>
      simp only [List.foldl_cons]
      rw [ih (a + x), ih (0 + x)]
      ring

lemma listSum_nil : listSum [] = 0 := rfl

lemma listSum_cons (x : ℚ) (xs : List ℚ) : listSum (x :: xs) = x + listSum xs := by
  simp only [listSum, List.foldl_cons]
  rw [foldl_add_shift xs (0 + x)]
  ring_nf

lemma listSum_map_div (l : List ℚ) (s : ℚ) :
    listSum (l.map (· / s)) = listSum l / s := by
  induction l with
  | nil => simp [listSum]
  | cons x xs ih => rw [List.map_cons, listSum_cons, listSum_cons, ih, add_div]

/-! ### Helper lemmas about `normalizeLabel` -/

lemma normalizeLabel_pos (l : List ℚ) (h : 0 < listSum l) :
    normalizeLabel l = l.map (· / listSum l) := by
  simp only [normalizeLabel]
  rw [if_pos h]

lemma listSum_normalizeLabel_pos (l : List ℚ) (h : 0 < listSum l) :
    listSum (normalizeLabel l) = 1 := by
  rw [normalizeLabel_pos l h, listSum_map_div, div_self (ne_of_gt h)]

lemma normalizeLabel_nonpos (l : List ℚ) (h : listSum l ≤ 0) :
    normalizeLabel l = List.replicate l.length (1 / (l.length : ℚ)) := by
  simp only [normalizeLabel]
  rw [if_neg (not_lt.mpr h)]
  exact List.map_const' l _

/-! ### Helper lemmas about the argmax scan -/

lemma semLabelLoop_nil (i : Nat) (acc : Nat × ℚ) : semLabelLoop [] i acc = acc := rfl

lemma semLabelLoop_cons (x : ℚ) (xs : List ℚ) (i bi : Nat) (bv : ℚ) :
    semLabelLoop (x :: xs) i (bi, bv) =
      if x > bv then semLabelLoop xs (i + 1) (i, x)
      else semLabelLoop xs (i + 1) (bi, bv) := rfl

lemma semLabelLoop_no_update (l : List ℚ) (i bi : Nat) (bv : ℚ)
    (h : ∀ x ∈ l, x ≤ bv) : semLabelLoop l i (bi, bv) = (bi, bv) := by
  induction l generalizing i with
  | nil => rfl
  | cons x xs ih =>
      rw [semLabelLoop_cons,
        if_neg (not_lt.mpr (h x (List.mem_cons_self x xs)))]
      exact ih (i + 1) fun y hy => h y (List.mem_cons_of_mem x hy)

lemma getD_mem_of_lt (l : List ℚ) (k : Nat) (h : k < l.length) : l.getD k 0 ∈ l := by
  rw [List.getD_eq_getElem l 0 h]
  exact List.getElem_mem h

/-- Full characterisation of the argmax scan: either no entry ever beats the
initial best value (and the accumulator survives unchanged), or the result is
the position (offset by the running index `i`) of the first entry attaining
the maximum, and that maximum beats the initial best value. -/
lemma semLabelLoop_spec (l : List ℚ) (i bi : Nat) (bv : ℚ) :
    (semLabelLoop l i (bi, bv) = (bi, bv) ∧ ∀ x ∈ l, x ≤ bv) ∨
    (∃ j, j < l.length ∧ semLabelLoop l i (bi, bv) = (i + j, l.getD j 0) ∧
      bv < l.getD j 0 ∧
      (∀ k, k < l.length → l.getD k 0 ≤ l.getD j 0) ∧
      (∀ k, k < j → l.getD k 0 < l.getD j 0)) := by
  induction l generalizing i bi bv with
  | nil => exact Or.inl ⟨rfl, by simp⟩
  | cons x xs ih =>
      by_cases hx : x > bv
      · rw [semLabelLoop_cons, if_pos hx]
        rcases ih (i + 1) i x with ⟨heq, hall⟩ | ⟨j, hj, heq, hlt, hmax, hfirst⟩
        · refine Or.inr ⟨0, by simp, ?_, by simpa using hx, ?_, by simp⟩
          · rw [heq]; simp
          · intro k hk
            cases k with
            | zero => simp
            | succ k' =>
                simp only [List.getD_cons_succ, List.getD_cons_zero]
                exact hall _ (getD_mem_of_lt xs k' (by simpa using hk))
        · refine Or.inr ⟨j + 1, by simpa using hj, ?_, ?_, ?_, ?_⟩
          · rw [heq]; simp only [List.getD_cons_succ]
            congr 1
            omega
          · simp only [List.getD_cons_succ]
            exact lt_trans hx hlt
          · intro k hk
            cases k with
            | zero =>
                simp only [List.getD_cons_succ, List.getD_cons_zero]
                exact le_of_lt hlt
            | succ k' =>
                simp only [List.getD_cons_succ]
                exact hmax k' (by simpa using hk)
          · intro k hk
            cases k with
            | zero =>
                simp only [List.getD_cons_succ, List.getD_cons_zero]
                exact hlt
            | succ k' =>
                simp only [List.getD_cons_succ]
                exact hfirst k' (by omega)
      · rw [semLabelLoop_cons, if_neg hx]
        rcases ih (i + 1) bi bv with ⟨heq, hall⟩ | ⟨j, hj, heq, hlt, hmax, hfirst⟩
        · refine Or.inl ⟨heq, ?_⟩
          intro y hy
          rcases List.mem_cons.mp hy with rfl | hy'
          · exact not_lt.mp hx
          · exact hall y hy'
        · refine Or.inr ⟨j + 1, by simpa using hj, ?_, ?_, ?_, ?_⟩
          · rw [heq]; simp only [List.getD_cons_succ]
            congr 1
            omega
          · simp only [List.getD_cons_succ]
            exact hlt
          · intro k hk
            cases k with
            | zero =>
                simp only [List.getD_cons_succ, List.getD_cons_zero]
                exact le_trans (not_lt.mp hx) (le_of_lt hlt)
            | succ k' =>
                simp only [List.getD_cons_succ]
                exact hmax k' (by simpa using hk)
          · intro k hk
            cases k with
            | zero =>
                simp only [List.getD_cons_succ, List.getD_cons_zero]
                exact lt_of_le_of_lt (not_lt.mp hx) hlt
            | succ k' =>
                simp only [List.getD_cons_succ]
                exact hfirst k' (by omega)

/-- With a non-empty, entry-wise non-negative distribution the
`std::max_element` index and the `getSemanticLabel` scan agree: both start in
effect from best value 0 at index 0. -/
lemma maxElementIdx_eq_getSemanticLabel (l : List ℚ) (hne : l ≠ [])
    (hnn : ∀ x ∈ l, 0 ≤ x) : maxElementIdx l = getSemanticLabel l := by
  cases l with
  | nil => exact absurd rfl hne
  | cons x xs =>
      show (semLabelLoop xs 1 (0, x)).1 = (semLabelLoop (x :: xs) 0 (0, 0)).1
      rw [semLabelLoop_cons]
      by_cases hx : x > 0
      · rw [if_pos hx]
      · have hx0 : x = 0 :=
          le_antisymm (not_lt.mp hx) (hnn x (List.mem_cons_self x xs))
        rw [if_neg hx, hx0]

/-! ### Helper lemmas about indexing into the fused label vector -/

lemma getD_replicate_zero (n i : Nat) : (List.replicate n (0 : ℚ)).getD i 0 = 0 := by
  induction n generalizing i with
  | zero => simp
  | succ n ih =>
      cases i with
      | zero => simp [List.replicate_succ]
      | succ i' => simp [List.replicate_succ, List.getD_cons_succ, ih]

lemma getD_append_replicate_zero (l : List ℚ) (n i : Nat) :
    (l ++ List.replicate n 0).getD i 0 = l.getD i 0 := by
  induction l generalizing i with
  | nil => simp [getD_replicate_zero]
  | cons x xs ih =>
      cases i with
      | zero => simp
      | succ i' =>
          simp only [List.cons_append, List.getD_cons_succ]
          exact ih i'

lemma getD_zipWith_append_lt (f : ℚ → ℚ → ℚ) (p o : List ℚ) (i : Nat)
    (hlen : o.length ≤ p.length) (hi : i < o.length) :
    (List.zipWith f p o ++ p.drop o.length).getD i 0 = f (p.getD i 0) (o.getD i 0) := by
  induction o generalizing p i with
  | nil => simp at hi
  | cons y ys ih =>
      cases p with
      | nil => simp at hlen
      | cons x xs =>
          cases i with
          | zero => simp
          | succ i' =>
              simp only [List.zipWith_cons_cons, List.length_cons,
                List.drop_succ_cons, List.cons_append, List.getD_cons_succ]
              exact ih xs i' (by simpa using hlen) (by simpa using hi)

lemma getD_zipWith_append_ge (f : ℚ → ℚ → ℚ) (p o : List ℚ) (i : Nat)
    (hlen : o.length ≤ p.length) (hi : o.length ≤ i) :
    (List.zipWith f p o ++ p.drop o.length).getD i 0 = p.getD i 0 := by
  induction o generalizing p i with
  | nil => simp
  | cons y ys ih =>
      cases p with
      | nil => simp at hlen
      | cons x xs =>
          cases i with
          | zero => simp at hi
          | succ i' =>
              simp only [List.zipWith_cons_cons, List.length_cons,
                List.drop_succ_cons, List.cons_append, List.getD_cons_succ]
              exact ih xs i' (by simpa using hlen) (by simpa using hi)

/-! ### Helper lemmas about the child-accumulation folds -/

lemma foldl_semAccStep_id (cs : List (Option NodeData))
    (h : ∀ ch ∈ cs, childSemSet ch = false)
    (a : List ℚ × Nat) : cs.foldl semAccStep a = a := by
  induction cs generalizing a with
  | nil => rfl
  | cons c cs ih =>
      have hc : semAccStep a c = a := by
        cases c with
        | none => rfl
        | some n =>
            have hn := h _ (List.mem_cons_self _ _)
            simp only [childSemSet, decide_eq_false_iff_not, not_not] at hn
            simp [semAccStep, hn]
      rw [List.foldl_cons, hc]
      exact ih (fun ch hch => h ch (List.mem_cons_of_mem _ hch)) a

lemma foldl_colorAccStep_id (cs : List (Option NodeData))
    (h : ∀ ch ∈ cs, childColorSet ch = false)
    (a : Nat × Nat × Nat × Nat) : cs.foldl colorAccStep a = a := by
  induction cs generalizing a with
  | nil => rfl
  | cons c cs ih =>
      have hc : colorAccStep a c = a := by
        cases c with
        | none => rfl
        | some n =>
            have hn := h _ (List.mem_cons_self _ _)
            simp only [childColorSet] at hn
            simp [colorAccStep, hn]
      rw [List.foldl_cons, hc]
      exact ih (fun ch hch => h ch (List.mem_cons_of_mem _ hch)) a

lemma foldl_semAccStep_count (cs : List (Option NodeData)) (a : List ℚ × Nat) :
    (cs.foldl semAccStep a).2 = a.2 + cs.countP childSemSet := by
  induction cs generalizing a with
  | nil => simp
  | cons c cs ih =>
      rw [List.foldl_cons, ih, List.countP_cons]
      cases c with
      | none => simp [semAccStep, childSemSet]
      | some n =>
          by_cases hn : n.semantics.label = []
          · simp [semAccStep, childSemSet, hn]
          · simp only [semAccStep, childSemSet, hn]
            simp [hn]
            omega

/-! ### The claims -/

/-- C4: `normalizeSemantics` divides every entry by the sum when the sum is
positive (so the result sums to 1), replaces every entry by `1/length` when
the sum is non-positive and the sequence non-empty, and leaves the empty
sequence empty (the uniform-fallback loop runs zero times, so the zero length
is never divided by). -/
theorem C4_normalize :
    (∀ l : List ℚ, 0 < listSum l →
      normalizeLabel l = l.map (· / listSum l) ∧ listSum (normalizeLabel l) = 1) ∧
    (∀ l : List ℚ, l ≠ [] → listSum l ≤ 0 →
      normalizeLabel l = List.replicate l.length (1 / (l.length : ℚ))) ∧
    normalizeLabel [] = [] :=
  ⟨fun l h => ⟨normalizeLabel_pos l h, listSum_normalizeLabel_pos l h⟩,
   fun l _ h => normalizeLabel_nonpos l h, rfl⟩

/-- Witness for C4 at concrete inputs: `[1, 3]` has positive sum, `[0, 0]` is
a non-empty all-zero distribution. -/
theorem C4_normalize_witness :
    normalizeLabel [1, 3] = [(1 : ℚ), 3].map (· / listSum [1, 3]) ∧
    normalizeLabel [0, 0] =
      List.replicate [(0 : ℚ), 0].length (1 / (([(0 : ℚ), 0].length : Nat) : ℚ)) :=
  ⟨(C4_normalize.1 [1, 3] (by norm_num [listSum, List.foldl])).1,
   C4_normalize.2.1 [0, 0] (by decide) (by norm_num [listSum, List.foldl])⟩

/-- C5: `averageNodeColor` blends a set color with the observation by a
per-channel truncated mean with no count weighting, and adopts the observation
verbatim on an unset color; concretely `blend(unset,(10,20,30)) = (10,20,30)`
and `blend((10,20,30),(20,20,20)) = (15,20,25)`. -/
theorem C5_color_blend :
    (∀ (c : Color) (r g b : Nat), isColorSet c = true →
      averageNodeColor c r g b = ⟨(c.r + r) / 2, (c.g + g) / 2, (c.b + b) / 2⟩) ∧
    (∀ (c : Color) (r g b : Nat), isColorSet c = false →
      averageNodeColor c r g b = ⟨r, g, b⟩) ∧
    averageNodeColor Color.white 10 20 30 = ⟨10, 20, 30⟩ ∧
    averageNodeColor ⟨10, 20, 30⟩ 20 20 20 = ⟨15, 20, 25⟩ := by
  refine ⟨fun c r g b h => ?_, fun c r g b h => ?_, by decide, by decide⟩
  · simp [averageNodeColor, h]
  · simp [averageNodeColor, h]

/-- Witness for C5: the set branch at `(10,20,30)` + `(20,20,20)`, the unset
branch at white + `(1,2,3)`. -/
theorem C5_color_blend_witness :
    averageNodeColor ⟨10, 20, 30⟩ 20 20 20 = ⟨(10 + 20) / 2, (20 + 20) / 2, (30 + 20) / 2⟩ ∧
    averageNodeColor Color.white 1 2 3 = ⟨1, 2, 3⟩ :=
  ⟨C5_color_blend.1 ⟨10, 20, 30⟩ 20 20 20 (by decide),
   C5_color_blend.2.1 Color.white 1 2 3 (by decide)⟩

/-- C10: `getSemanticLabel` is total and returns 0 on the empty distribution
and on any distribution all of whose entries are ≤ 0, because the scan starts
from best index 0, best value 0, and replaces only on a strictly greater
entry. -/
theorem C10_argmax_total :
    getSemanticLabel [] = 0 ∧
    ∀ l : List ℚ, (∀ x ∈ l, x ≤ 0) → getSemanticLabel l = 0 := by
  refine ⟨rfl, fun l h => ?_⟩
  show (semLabelLoop l 0 (0, 0)).1 = 0
  rw [semLabelLoop_no_update l 0 0 0 h]

/-- Witness for C10: an all-non-positive distribution. -/
theorem C10_argmax_total_witness : getSemanticLabel [0, -1] = 0 :=
  C10_argmax_total.2 [0, -1] (by norm_num)

/-- C8: on a non-empty distribution with non-negative entries (the data
model's label distributions), `getSemanticLabel` returns the index of the
largest entry with ties broken toward the lowest index: no entry exceeds the
returned one and every earlier entry is strictly smaller; concretely
`argmaxLabel([0.4,0.4,0.2]) = 0`. -/
theorem C8_argmax_first_max :
    (∀ l : List ℚ, l ≠ [] → (∀ x ∈ l, 0 ≤ x) →
      getSemanticLabel l < l.length ∧
      (∀ j, j < l.length → l.getD j 0 ≤ l.getD (getSemanticLabel l) 0) ∧
      (∀ j, j < getSemanticLabel l → l.getD j 0 < l.getD (getSemanticLabel l) 0)) ∧
    getSemanticLabel [2/5, 2/5, 1/5] = 0 := by
  constructor
  · intro l hne hnn
    rcases semLabelLoop_spec l 0 0 0 with ⟨heq, hall⟩ | ⟨j, hj, heq, _, hmax, hfirst⟩
    · have hzero : getSemanticLabel l = 0 := by
        show (semLabelLoop l 0 (0, 0)).1 = 0
        rw [heq]
      have hlen : 0 < l.length := List.length_pos.mpr hne
      refine ⟨by rw [hzero]; exact hlen, ?_, ?_⟩
      · intro k hk
        rw [hzero]
        exact le_trans (hall _ (getD_mem_of_lt l k hk))
          (hnn _ (getD_mem_of_lt l 0 hlen))
      · intro k hk
        rw [hzero] at hk
        omega
    · have hj' : getSemanticLabel l = j := by
        show (semLabelLoop l 0 (0, 0)).1 = j
        rw [heq]
        simp
      rw [hj']
      exact ⟨hj, hmax, hfirst⟩
  · norm_num [getSemanticLabel, semLabelLoop]

/-- Witness for C8 at the non-negative distribution `[1, 0]`. -/
theorem C8_argmax_first_max_witness :
    getSemanticLabel [(1 : ℚ), 0] < [(1 : ℚ), 0].length :=
  (C8_argmax_first_max.1 [1, 0] (by decide) (by norm_num)).1

lemma countP_pos_iff_any (cs : List (Option NodeData)) :
    0 < cs.countP childSemSet ↔ cs.any childSemSet = true := by
  induction cs with
  | nil => simp
  | cons c cs ih =>
      rw [List.countP_cons, List.any_cons]
      by_cases hc : childSemSet c = true
      · simp [hc]
      · simp [hc, ih]

/-- C9: the semantics-aggregation step discards the parent's prior observation
count: the new count is 1 exactly when some existing child has set semantics,
and 0 otherwise, whatever the prior count was. -/
theorem C9_count_discarded (prior : Semantics)
    (children : List (Option NodeData)) :
    (updateSemanticsChildren prior children).count =
      if children.any childSemSet then 1 else 0 := by
  have hcount : (semAccumulate (some children)).2 = children.countP childSemSet := by
    show (children.foldl semAccStep ([], 0)).2 = _
    rw [foldl_semAccStep_count]
    simp
  show (getAverageChildSemantics (some children)).count = _
  simp only [getAverageChildSemantics]
  by_cases hany : children.any childSemSet = true
  · rw [if_pos hany, if_pos (by rw [hcount]; exact (countP_pos_iff_any children).mpr hany)]
    rfl
  · rw [if_neg hany, if_neg (by rw [hcount]; intro h; exact hany ((countP_pos_iff_any children).mp h))]
    rfl

/-- C7: writing a node emits the occupancy value's raw bytes then the three
color channel bytes, nothing else; reading that back reproduces the occupancy
value and color exactly, while the reading node's semantics (distribution and
count) are whatever they were before — semantics are not persisted. -/
theorem C7_serialization_roundtrip (n m : NodeData) (h : n.value.length = 4) :
    writeData n [] = n.value ++ [n.color.r, n.color.g, n.color.b] ∧
    readData m (writeData n []) = some (⟨n.value, n.color, m.semantics⟩, []) := by
  rcases n with ⟨v, c, s⟩
  rcases c with ⟨r, g, b⟩
  rcases m with ⟨mv, mc, ms⟩
  simp only at h
  cases v with
  | nil => simp at h
  | cons v0 t0 =>
    cases t0 with
    | nil => simp at h
    | cons v1 t1 =>
      cases t1 with
      | nil => simp at h
      | cons v2 t2 =>
        cases t2 with
        | nil => simp at h
        | cons v3 t3 =>
          cases t3 with
          | cons v4 t4 => simp at h
          | nil => exact ⟨rfl, rfl⟩

/-- Witness for C7 at a concrete node and reader. -/
theorem C7_serialization_roundtrip_witness :
    readData ⟨[0, 0, 0, 0], Color.white, Semantics.unset⟩
        (writeData ⟨[9, 8, 7, 6], ⟨10, 20, 30⟩, ⟨[1], 5⟩⟩ []) =
      some (⟨[9, 8, 7, 6], ⟨10, 20, 30⟩, Semantics.unset⟩, []) :=
  (C7_serialization_roundtrip ⟨[9, 8, 7, 6], ⟨10, 20, 30⟩, ⟨[1], 5⟩⟩
    ⟨[0, 0, 0, 0], Color.white, Semantics.unset⟩ rfl).2

/-- C3: semantics fusion on a non-null node.  With set semantics the result's
count is the old count plus one and its distribution is the normalization of a
vector `pre` of length `max` of the two lengths whose entry at each index `i`
of the observation is `(existing[i] * count + observed[i]) / (count + 1)`
(existing entries beyond their length reading as the zero padding) and whose
entries past the observation are the existing ones unchanged.  With unset
semantics the observation is adopted, normalized, with count 1.  Concretely,
fusing `(label=[0.5,0.5], count=1)` with `[1.0,0.0]` gives `([0.75,0.25], 2)`. -/
theorem C3_semantics_fusion :
    (∀ (s : Semantics) (obs : List ℚ), s.label ≠ [] →
      (averageNodeSemantics s obs).count = s.count + 1 ∧
      ∃ pre : List ℚ,
        (averageNodeSemantics s obs).label = normalizeLabel pre ∧
        pre.length = max s.label.length obs.length ∧
        (∀ i, i < obs.length →
          pre.getD i 0 =
            (s.label.getD i 0 * (s.count : ℚ) + obs.getD i 0) / ((s.count : ℚ) + 1)) ∧
        (∀ i, obs.length ≤ i → pre.getD i 0 = s.label.getD i 0)) ∧
    (∀ (s : Semantics) (obs : List ℚ), s.label = [] →
      averageNodeSemantics s obs = ⟨normalizeLabel obs, 1⟩) ∧
    averageNodeSemantics ⟨[1/2, 1/2], 1⟩ [1, 0] = ⟨[3/4, 1/4], 2⟩ := by
  refine ⟨?_, ?_, ?_⟩
  · intro s obs h
    simp only [averageNodeSemantics, if_pos h]
    set prev := if s.label.length < obs.length then
        s.label ++ List.replicate (obs.length - s.label.length) 0
      else s.label with hprev
    have hprevlen : obs.length ≤ prev.length := by
      rw [hprev]
      split
      · simp only [List.length_append, List.length_replicate]
        omega
      · omega
    have hprevmax : prev.length = max s.label.length obs.length := by
      rw [hprev]
      split
      · simp only [List.length_append, List.length_replicate]
        omega
      · omega
    have hprevgetD : ∀ i, prev.getD i 0 = s.label.getD i 0 := by
      intro i
      rw [hprev]
      split
      · exact getD_append_replicate_zero _ _ _
      · rfl
    refine ⟨by trivial, ?_⟩
    refine ⟨_, rfl, ?_, ?_, ?_⟩
    · rw [List.length_append, List.length_zipWith, List.length_drop]
      omega
    · intro i hi
      rw [getD_zipWith_append_lt _ prev obs i hprevlen hi, hprevgetD i]
    · intro i hi
      rw [getD_zipWith_append_ge _ prev obs i hprevlen hi, hprevgetD i]
  · intro s obs h
    simp [averageNodeSemantics, h]
  · simp only [averageNodeSemantics, normalizeLabel, listSum,
      List.foldl, List.cons_ne_nil, ne_eq, not_false_eq_true, if_true, reduceIte,
      List.length_cons, List.length_nil, List.replicate, List.zipWith, List.drop, List.map]
    norm_num

/-- Witness for C3: the set branch at `([1], count 1)` with observation `[1]`,
the unset branch at observation `[1, 1]`. -/
theorem C3_semantics_fusion_witness :
    (averageNodeSemantics ⟨[(1 : ℚ)], 1⟩ [1]).count = 1 + 1 ∧
    averageNodeSemantics ⟨[], 0⟩ [1, 1] = ⟨normalizeLabel [1, 1], 1⟩ :=
  ⟨(C3_semantics_fusion.1 ⟨[(1 : ℚ)], 1⟩ [1] (by decide)).1,
   C3_semantics_fusion.2.1 ⟨[], 0⟩ [1, 1] rfl⟩

/-- C6: aggregating an inner node with the label-color map empty, when no
existing child has a set color and none has set semantics, resets the node's
color to the white sentinel and its semantics to the unset empty semantics
(count 0) — plain fallback values, not errors.  The step reads nothing of the
parent's prior color or semantics, so any previously aggregated semantics are
cleared. -/
theorem C6_unset_children_fallback (children : List (Option NodeData))
    (hcol : ∀ ch ∈ children, childColorSet ch = false)
    (hsem : ∀ ch ∈ children, childSemSet ch = false) :
    innerAggregateStep children [] = some (Color.white, Semantics.unset) := by
  have hs : semAccumulate (some children) = ([], 0) := by
    show children.foldl semAccStep ([], 0) = ([], 0)
    exact foldl_semAccStep_id children hsem ([], 0)
  have hsem0 : getAverageChildSemantics (some children) = Semantics.unset := by
    simp only [getAverageChildSemantics, hs]
    rfl
  have hcol0 : getAverageChildColorNoMap (some children) = Color.white := by
    simp only [getAverageChildColorNoMap]
    rw [foldl_colorAccStep_id children hcol (0, 0, 0, 0)]
    rfl
  simp only [innerAggregateStep, hsem0, getAverageChildColorMap,
    List.isEmpty_nil, if_true, hcol0]
  rfl

/-- Witness for C6: eight child slots, one holding a node with default-white
color and empty semantics (but a stale count), the rest absent. -/
theorem C6_unset_children_fallback_witness :
    innerAggregateStep
        [some ⟨[0, 0, 0, 0], Color.white, ⟨[], 9⟩⟩,
         none, none, none, none, none, none, none] [] =
      some (Color.white, Semantics.unset) :=
  C6_unset_children_fallback _ (by decide) (by decide)

/-- C2 counterexample: a single contributing child whose (set) semantics are
the all-zero distribution `[0, 0]`.  The accumulated distribution sums to
zero, and `getAverageChildSemantics` divides by that zero sum unguarded
(IEEE float: `0/0 = NaN`; in this exact-arithmetic model division by zero
yields 0): the resulting parent distribution is `[0, 0]`, which neither sums
to 1 nor is the uniform fallback `[1/2, 1/2]` the claim promises. -/
theorem C2_counterexample :
    childSemSet (some ⟨[0, 0, 0, 0], Color.white, ⟨[0, 0], 0⟩⟩) = true ∧
    getAverageChildSemantics
        (some [some ⟨[0, 0, 0, 0], Color.white, ⟨[0, 0], 0⟩⟩,
          none, none, none, none, none, none, none]) = ⟨[0, 0], 1⟩ ∧
    listSum [(0 : ℚ), 0] ≠ 1 ∧
    [(0 : ℚ), 0] ≠ List.replicate 2 (1 / (2 : ℚ)) := by
  refine ⟨by decide, ?_, by norm_num [listSum, List.foldl], by norm_num [List.replicate]⟩
  simp only [getAverageChildSemantics, semAccumulate, semAccStep, listSum,
    Semantics.ofLabel, List.foldl, List.cons_ne_nil, ne_eq, not_false_eq_true,
    if_true, reduceIte, List.length_cons, List.length_nil, List.replicate,
    List.zipWith, List.drop, List.map]
  norm_num

/-- C2 amended: when at least one child contributes set semantics AND the
accumulated child distributions have positive sum, the aggregated parent
distribution does sum to 1.  (The all-zero-accumulator case has no uniform
fallback in this function — see the counterexample.) -/
theorem C2_semantics_aggregation_sum (children : List (Option NodeData))
    (hc : 0 < (semAccumulate (some children)).2)
    (hsum : 0 < listSum (semAccumulate (some children)).1) :
    listSum (getAverageChildSemantics (some children)).label = 1 := by
  simp only [getAverageChildSemantics, if_pos hc, Semantics.ofLabel]
  have hc' : (0 : ℚ) < ((semAccumulate (some children)).2 : ℚ) := by exact_mod_cast hc
  have hdiv : 0 < listSum
      ((semAccumulate (some children)).1.map (· / ((semAccumulate (some children)).2 : ℚ))) := by
    rw [listSum_map_div]
    exact div_pos hsum hc'
  rw [listSum_map_div]
  exact div_self (ne_of_gt hdiv)

/-- Witness for the amended C2: one contributing child with distribution
`[1, 1]`. -/
theorem C2_semantics_aggregation_sum_witness :
    listSum (getAverageChildSemantics
        (some [some ⟨[0, 0, 0, 0], Color.white, ⟨[1, 1], 1⟩⟩,
          none, none, none, none, none, none, none])).label = 1 :=
  C2_semantics_aggregation_sum _ (by decide)
    (by simp only [semAccumulate, semAccStep, listSum, List.foldl, List.cons_ne_nil,
          ne_eq, not_false_eq_true, if_true, reduceIte, List.length_cons,
          List.length_nil, List.replicate, List.zipWith, List.drop]
        norm_num)

/-- C1 counterexample: a leaf with color (10,20,30) and unset semantics, with
the label-color map empty.  The aggregation pass does NOT leave the leaf's
color as-is: `updateColorChildren(label2color)` overwrites it with
`getAverageChildColor`, which, with no children contributing, returns the
white sentinel — the previously stored color is lost. -/
theorem C1_leaf_counterexample :
    leafAggregateColor ⟨[0, 0, 0, 0], ⟨10, 20, 30⟩, ⟨[], 0⟩⟩ [] = some Color.white ∧
    some Color.white ≠ some (⟨10, 20, 30⟩ : Color) :=
  ⟨rfl, by decide⟩

/-- C1 amended: one aggregation call on a leaf overwrites the leaf's color as
follows — with an empty map the color is reset to the white sentinel (not
left as-is); with a non-empty map and unset semantics it is likewise reset to
white, the argmax never being consulted (the result is white whatever the map
holds); with a non-empty map and set (non-negative) semantics it becomes the
map entry of the argmax label (a missing key modelling the thrown
exception as `none`). -/
theorem C1_leaf_aggregation (node : NodeData) (m : List (Nat × Color)) :
    (m = [] → leafAggregateColor node m = some Color.white) ∧
    (m ≠ [] → node.semantics.label = [] →
      leafAggregateColor node m = some Color.white) ∧
    (m ≠ [] → node.semantics.label ≠ [] → (∀ x ∈ node.semantics.label, 0 ≤ x) →
      leafAggregateColor node m = m.lookup (getSemanticLabel node.semantics.label)) := by
  refine ⟨?_, ?_, ?_⟩
  · intro h
    subst h
    rfl
  · intro hm hlab
    cases m with
    | nil => exact absurd rfl hm
    | cons p ps => simp [leafAggregateColor, getAverageChildColorMap, hlab]
  · intro hm hlab hnn
    have hne : node.semantics.label.isEmpty = false := by
      cases hl : node.semantics.label with
      | nil => exact absurd hl hlab
      | cons _ _ => rfl
    cases m with
    | nil => exact absurd rfl hm
    | cons p ps =>
        simp only [leafAggregateColor, getAverageChildColorMap, List.isEmpty_cons,
          Bool.false_eq_true, if_false, hne]
        rw [maxElementIdx_eq_getSemanticLabel _ hlab hnn]

/-- Witness for the amended C1, at a concrete leaf and map for each branch:
empty map, non-empty map with unset semantics, non-empty map with the set
distribution `[1, 0]` (argmax 0). -/
theorem C1_leaf_aggregation_witness :
    leafAggregateColor ⟨[0, 0, 0, 0], ⟨10, 20, 30⟩, ⟨[], 0⟩⟩ [] = some Color.white ∧
    leafAggregateColor ⟨[0, 0, 0, 0], ⟨10, 20, 30⟩, ⟨[], 3⟩⟩ [(7, ⟨1, 2, 3⟩)] =
      some Color.white ∧
    leafAggregateColor ⟨[0, 0, 0, 0], Color.white, ⟨[1, 0], 1⟩⟩ [(0, ⟨1, 2, 3⟩)] =
      [((0 : Nat), (⟨1, 2, 3⟩ : Color))].lookup (getSemanticLabel [(1 : ℚ), 0]) :=
  ⟨(C1_leaf_aggregation ⟨[0, 0, 0, 0], ⟨10, 20, 30⟩, ⟨[], 0⟩⟩ []).1 rfl,
   (C1_leaf_aggregation ⟨[0, 0, 0, 0], ⟨10, 20, 30⟩, ⟨[], 3⟩⟩ _).2.1 (by decide) rfl,
   (C1_leaf_aggregation ⟨[0, 0, 0, 0], Color.white, ⟨[1, 0], 1⟩⟩ _).2.2
     (by decide) (by decide) (by norm_num)⟩

end SemanticOcTree
